import Mathlib

/-!
Shallow embedding of the logistic-regression notebook
(`src/Lecture2/Logistic Regression.ipynb`) and proofs about it.

Vectors are `List α` and matrices are row-major `List (List α)` over an
arbitrary linear ordered field `α`: the notebook computes with floats, and
the embedding uses the exact field semantics of the same formulas.  The
host library's transcendental functions `np.exp` and `np.log` are passed
to each definition as explicit function parameters `exp` and `log`;
theorems assume of `exp` only the properties they need (positivity,
strict monotonicity, `exp 0 = 1`), all of which hold for the real
exponential, so every statement instantiates to the notebook's functions.
-/

namespace SusyLR

variable {α : Type*} [LinearOrderedField α] [FloorRing α]

/-- Dot product of two 1-D vectors, `np.dot(x, w)`. -/
def dot (x w : List α) : α := (List.zipWith (fun a b => a * b) x w).sum

/-- Scalar `np.sign`: -1 on negatives, 0 at 0, 1 on positives. -/
def sign (a : α) : α := if a < 0 then -1 else if a = 0 then 0 else 1

/-- Elementwise addition of two same-length 1-D arrays (numpy `+`). -/
def vecAdd (u v : List α) : List α := List.zipWith (fun a b => a + b) u v

/-- Elementwise subtraction of two same-length 1-D arrays (numpy `-`). -/
def vecSub (u v : List α) : List α := List.zipWith (fun a b => a - b) u v

/-- Scalar multiple of a 1-D array. -/
def scale (c : α) (v : List α) : List α := v.map (fun a => c * a)

/-- Length-padded elementwise addition; auxiliary accumulator for
`matTvec` (on the rectangular inputs the notebook uses, all the vectors
added have equal length and the padding never kicks in). -/
def vaddPad : List α → List α → List α
  | [], v => v
  | a :: u, [] => a :: u
  | a :: u, b :: v => (a + b) :: vaddPad u v

/-- Matrix-transpose-vector product `np.dot(X.T, v)`: the sum of the
rows of `X` weighted by the entries of `v`, so entry `j` of the result
is `Σ i, X i j * v i`. -/
def matTvec : List (List α) → List α → List α
  | [], _ => []
  | _ :: _, [] => []
  | row :: X, c :: v => vaddPad (row.map (fun a => a * c)) (matTvec X v)

/-- Sigmoid of the score of one data row: `1 / (1 + np.exp(-np.dot(x, w)))`. -/
def sigmoid1 (exp : α → α) (x w : List α) : α :=
  1 / (1 + exp (-(dot x w)))

/-- Source `sigmoid(X, w)` on a stack of rows: elementwise sigmoid of the
product `Xw` (`1 / (1 + np.exp(-np.dot(X, w)))`). -/
def sigmoid (exp : α → α) (X : List (List α)) (w : List α) : List α :=
  X.map (fun x => sigmoid1 exp x w)

/-- Base term of the batch branch of the source `gradient`:
`-np.dot(X.T, y - sigmoid(X, w)) / y.size`. -/
def gradBase (exp : α → α) (X : List (List α)) (y w : List α) : List α :=
  (matTvec X (vecSub y (sigmoid exp X w))).map (fun u => -u / (y.length : α))

/-- Source `gradient(X, y, w, onept=False, norm, lamb)`, the batch branch.
`grad` starts as the scalar `0`; `lamb * np.sign(w)` is added if
`norm == 'l1'`, `2 * lamb * w` if `norm == 'l2'` (two independent `if`s on
distinct strings, so at most one fires), and then the base term
`-np.dot(X.T, y - sigmoid(X, w)) / y.size` is added in place. -/
def gradientBatch (exp : α → α) (norm : Option String) (lamb : α)
    (X : List (List α)) (y w : List α) : List α :=
  if norm = some "l1" then vecAdd (w.map (fun a => lamb * sign a)) (gradBase exp X y w)
  else if norm = some "l2" then vecAdd (w.map (fun a => 2 * lamb * a)) (gradBase exp X y w)
  else gradBase exp X y w

/-- Source `gradient(X, y, w, onept=True, norm, lamb)`, the one-point
branch.  The base term is `-((y - sigmoid(X, w)) * X).reshape(w.size, 1)`:
the reshape raises `ValueError` unless `x` has exactly `w.size` entries
(modelled as `none`), and when `norm` selects `'l1'` or `'l2'` the
in-place addition `grad += base` of a `(w.size, 1)` array into the 1-D
`(w.size,)` regularization array is a non-broadcastable-output numpy
error (also `none`).  Otherwise the result is the `(w.size, 1)` column. -/
def gradientOnept (exp : α → α) (norm : Option String) (lamb : α)
    (x : List α) (y : α) (w : List α) : Option (List (List α)) :=
  if x.length = w.length then
    if norm = some "l1" ∨ norm = some "l2" then none
    else some ((x.map (fun a => -((y - sigmoid1 exp x w) * a))).map (fun a => [a]))
  else none

/-- Log-likelihood accumulator of the source `loss`: the loop
`for i in range(X.shape[0]): sumcost += y[i]*log(sigmoid(X[i],w)) + (1-y[i])*log(1-sigmoid(X[i],w))`,
written as a `zipWith` over the rows and labels, which agrees with the
indexing loop whenever the row count of `X` equals the length of `y` (the
only case in which the source loop does not raise).  In `normcost` below,
`np.linalg.norm(w)**2` is the square of the Euclidean norm, i.e. exactly
the sum of the squares of the entries of `w` in field arithmetic. -/
def sumcost (exp log : α → α) (X : List (List α)) (y w : List α) : α :=
  (List.zipWith
    (fun xi yi => yi * log (sigmoid1 exp xi w)
      + (1 - yi) * log (1 - sigmoid1 exp xi w)) X y).sum

/-- Regularization cost of the source `loss`: the two independent `if`s
on `norm`. -/
def normcost (norm : Option String) (lamb : α) (w : List α) : α :=
  if norm = some "l1" then lamb * (w.map (fun a => |a|)).sum
  else if norm = some "l2" then lamb * (w.map (fun a => a ^ 2)).sum
  else 0

/-- Source `loss(X, y, w, norm, lamb)`: `normcost - sumcost / y.size`. -/
def loss (exp log : α → α) (norm : Option String) (lamb : α)
    (X : List (List α)) (y w : List α) : α :=
  normcost norm lamb w - sumcost exp log X y w / (y.length : α)

/-- Rounding of one scalar by `np.round`: nearest integer, ties to the
even neighbour. -/
def npRound (p : α) : α :=
  if Int.fract p = 1 / 2 then
    (if ⌊p⌋ % 2 = 0 then (⌊p⌋ : α) else (⌊p⌋ : α) + 1)
  else ((round p : ℤ) : α)

/-- Source `accuracy(X, y, w)`:
`results = np.round(sigmoid(X, w))` followed by
`sum([results[i] == y[i] for i in range(y.size)]) / y.size`
(booleans summed as 0/1; the comprehension indexes `results[i]` for
`i < y.size`, which matches the `zipWith` whenever the row count of `X`
equals the length of `y`, the only case in which the source does not
raise). -/
def accuracy (exp : α → α) (X : List (List α)) (y w : List α) : α :=
  (List.zipWith (fun r yi => if r = yi then (1 : α) else 0)
    ((sigmoid exp X w).map npRound) y).sum / (y.length : α)

/-- State threaded through the notebook's training loop (cell 8):
current parameters `theta` and the three recorded histories. -/
structure TrainState (α : Type*) where
  theta : List α
  losses : List α
  train_accs : List α
  val_accs : List α

/-- One parameter update of the training loop:
`diff = epsilon * gradient(X_train, Y_train, theta); theta = theta - diff`,
where `gradient` is called with its defaults `onept=False, norm=None, lamb=0`. -/
def trainStep (exp : α → α) (Xtr : List (List α)) (ytr : List α)
    (eps : α) (w : List α) : List α :=
  vecSub w (scale eps (gradientBatch exp none 0 Xtr ytr w))

/-- One iteration of the notebook's training loop: update `theta`, then
append `loss(X_train, Y_train, theta)`, `accuracy(X_train, Y_train, theta)`
and `accuracy(X_val, Y_val, theta)` to the three histories. -/
def trainIter (exp log : α → α) (Xtr : List (List α)) (ytr : List α)
    (Xval : List (List α)) (yval : List α) (eps : α)
    (s : TrainState α) : TrainState α :=
  let w := trainStep exp Xtr ytr eps s.theta
  { theta := w
    losses := s.losses ++ [loss exp log none 0 Xtr ytr w]
    train_accs := s.train_accs ++ [accuracy exp Xtr ytr w]
    val_accs := s.val_accs ++ [accuracy exp Xval yval w] }

/-- The notebook's training loop: `for i in range(num_iterations)` around
`trainIter`, i.e. `num_iterations`-fold iteration from the initial state. -/
def train (exp log : α → α) (Xtr : List (List α)) (ytr : List α)
    (Xval : List (List α)) (yval : List α) (eps : α) (k : ℕ)
    (s : TrainState α) : TrainState α :=
  (trainIter exp log Xtr ytr Xval yval eps)^[k] s

/-- Regularization term of the specification's gradient formula:
`λ * sign(w)` elementwise for L1, `2λ * w` for L2, and the zero vector
for no regularization. -/
def specRegTerm (norm : Option String) (lamb : α) (w : List α) : List α :=
  if norm = some "l1" then w.map (fun a => lamb * sign a)
  else if norm = some "l2" then w.map (fun a => 2 * lamb * a)
  else List.replicate w.length 0

/-- The specification's unregularized batch gradient
`-Xᵗ(y - sigmoid(X, w)) / n`, written as the scalar `-1/n` times the
vector `Xᵗ(y - sigmoid(X, w))`, with `n` the number of rows. -/
def unregGradient (exp : α → α) (X : List (List α)) (y w : List α) : List α :=
  scale (-1 / (y.length : α)) (matTvec X (vecSub y (sigmoid exp X w)))

/-- The specification's batch-gradient formula: the base term
`-Xᵗ(y - sigmoid(X, w)) / n` plus the regularization term. -/
def specGradientBatch (exp : α → α) (norm : Option String) (lamb : α)
    (X : List (List α)) (y w : List α) : List α :=
  vecAdd (unregGradient exp X y w) (specRegTerm norm lamb w)

/-- The specification's loss penalty: `λ * sum(|w|)` for L1,
`λ * ‖w‖²` (the sum of squares) for L2, and `0` otherwise. -/
def specPenalty (norm : Option String) (lamb : α) (w : List α) : α :=
  if norm = some "l1" then lamb * (w.map (fun a => |a|)).sum
  else if norm = some "l2" then lamb * (w.map (fun a => a ^ 2)).sum
  else 0

/-- The specification's loss formula: the negative average log-likelihood
`-mean(y·log(sigmoid) + (1-y)·log(1-sigmoid))` plus the penalty. -/
def specLoss (exp log : α → α) (norm : Option String) (lamb : α)
    (X : List (List α)) (y w : List α) : α :=
  -(sumcost exp log X y w / (y.length : α)) + specPenalty norm lamb w

/-- Boolean test that a numpy result is a `(k, 1)` column vector, i.e. a
result with exactly `k` entries arranged to match a length-`k` weight
vector. -/
def isColOfLen (k : ℕ) (o : Option (List (List α))) : Bool :=
  match o with
  | some M => M.length == k && M.all (fun r => r.length == 1)
  | none => false

/-- Concrete strictly monotone positive rational function with value `1`
at `0`, used to instantiate the abstract `exp` parameter in witnesses
(the real exponential has all three properties but is not computable). -/
def qexp (z : ℚ) : ℚ := if 0 ≤ z then 1 + z else 1 / (1 - z)

/-! ### Helper lemmas -/

theorem vaddPad_length (u v : List α) :
    (vaddPad u v).length = max u.length v.length := by
  induction u generalizing v with
  | nil => simp [vaddPad]
  | cons a u ih =>
    cases v with
    | nil => simp [vaddPad]
    | cons b v =>
      simp only [vaddPad, List.length_cons, ih]
      omega

theorem matTvec_length_aux {d : ℕ} (X : List (List α)) (v : List α)
    (hrect : ∀ row ∈ X, row.length = d) (hv : v.length = X.length) :
    (matTvec X v).length = if X.length = 0 then 0 else d := by
  induction X generalizing v with
  | nil =>
    cases v with
    | nil => simp [matTvec]
    | cons c v => simp at hv
  | cons row X ih =>
    cases v with
    | nil => simp at hv
    | cons c v =>
      have h1 : row.length = d := hrect row (by simp)
      have h2 := ih v (fun r hr => hrect r (by simp [hr])) (by simpa using hv)
      simp only [matTvec, vaddPad_length, List.length_map, h1, h2,
        List.length_cons]
      by_cases hX : X.length = 0 <;> simp [hX] <;> omega

theorem matTvec_length {d : ℕ} {X : List (List α)} {v : List α} (hX : X ≠ [])
    (hrect : ∀ row ∈ X, row.length = d) (hv : v.length = X.length) :
    (matTvec X v).length = d := by
  rw [matTvec_length_aux X v hrect hv, if_neg]
  simpa using (List.length_pos.mpr hX).ne'

theorem vecSub_sigmoid_length (exp : α → α) {X : List (List α)} {y w : List α}
    (hy : y.length = X.length) :
    (vecSub y (sigmoid exp X w)).length = X.length := by
  simp [vecSub, sigmoid, hy]

theorem gradBase_length (exp : α → α) {d : ℕ} {X : List (List α)} {y w : List α}
    (hX : X ≠ []) (hrect : ∀ row ∈ X, row.length = d)
    (hy : y.length = X.length) :
    (gradBase exp X y w).length = d := by
  rw [gradBase, List.length_map]
  exact matTvec_length hX hrect (vecSub_sigmoid_length exp hy)

theorem gradientBatch_length (exp : α → α) (norm : Option String) (lamb : α)
    {d : ℕ} {X : List (List α)} {y w : List α} (hX : X ≠ [])
    (hrect : ∀ row ∈ X, row.length = d) (hy : y.length = X.length)
    (hw : w.length = d) :
    (gradientBatch exp norm lamb X y w).length = d := by
  have hb := gradBase_length exp (w := w) hX hrect hy
  unfold gradientBatch
  split_ifs <;> simp [vecAdd, hb, hw]

theorem gradBase_eq_unreg (exp : α → α) (X : List (List α)) (y w : List α) :
    gradBase exp X y w = unregGradient exp X y w := by
  simp only [gradBase, unregGradient, scale]
  congr 1
  funext u
  ring

theorem vecAdd_replicate_zero (v : List α) :
    vecAdd v (List.replicate v.length 0) = v := by
  induction v with
  | nil => rfl
  | cons a v ih => simp [vecAdd, List.replicate_succ, List.zipWith] at ih ⊢; exact ih

theorem vecAdd_map_zero (w b : List α) (h : b.length ≤ w.length) :
    vecAdd (w.map (fun _ => (0 : α))) b = b := by
  induction w generalizing b with
  | nil =>
    cases b with
    | nil => rfl
    | cons x xs => simp at h
  | cons a w ih =>
    cases b with
    | nil => simp [vecAdd]
    | cons x xs =>
      simp only [List.map_cons, vecAdd, List.zipWith_cons_cons, zero_add]
      exact congrArg (List.cons x) (ih xs (by simpa using h))

theorem dot_cons (a b : α) (x w : List α) :
    dot (a :: x) (b :: w) = a * b + dot x w := by
  simp [dot]

theorem dot_map_smul (x w : List α) (c : α) :
    dot x (w.map (fun a => c * a)) = c * dot x w := by
  induction x generalizing w with
  | nil => simp [dot]
  | cons a x ih =>
    cases w with
    | nil => simp [dot]
    | cons b w =>
      rw [List.map_cons, dot_cons, dot_cons, ih w]
      ring

theorem sigmoid1_pos_lt_one (exp : α → α) (hexp : ∀ z, 0 < exp z)
    (x w : List α) : 0 < sigmoid1 exp x w ∧ sigmoid1 exp x w < 1 := by
  have he := hexp (-(dot x w))
  have h1 : (0 : α) < 1 + exp (-(dot x w)) := by linarith
  refine ⟨div_pos one_pos h1, ?_⟩
  rw [sigmoid1, div_lt_one h1]
  linarith

theorem npRound_eq_ite {p : α} (h0 : 0 < p) (h1 : p < 1) :
    npRound p = if 1 / 2 < p then 1 else 0 := by
  have hfl : ⌊p⌋ = 0 := Int.floor_eq_zero_iff.mpr ⟨h0.le, h1⟩
  have hfr : Int.fract p = p := Int.fract_eq_self.mpr ⟨h0.le, h1⟩
  unfold npRound
  rw [hfr, hfl]
  by_cases hp : p = 1 / 2
  · simp [hp]
  · rw [if_neg hp, round_eq]
    by_cases hlt : 1 / 2 < p
    · have hfo : ⌊p + 1 / 2⌋ = 1 := by
        rw [Int.floor_eq_iff]
        push_cast
        constructor <;> linarith
      rw [hfo, if_pos hlt]
      norm_num
    · have hpl : p < 1 / 2 := lt_of_le_of_ne (not_lt.mp hlt) hp
      have hfo : ⌊p + 1 / 2⌋ = 0 := by
        rw [Int.floor_eq_zero_iff]
        constructor <;> [linarith; simpa using by linarith]
      rw [hfo, if_neg hlt]
      norm_num

theorem half_lt_sigmoid1_iff {exp : α → α} (hmono : StrictMono exp)
    (hzero : exp 0 = 1) (hpos : ∀ z, 0 < exp z) (x w : List α) :
    1 / 2 < sigmoid1 exp x w ↔ 0 < dot x w := by
  have he := hpos (-(dot x w))
  have h2 : (0 : α) < 2 := by norm_num
  rw [sigmoid1, show (1 : α) / 2 < 1 / (1 + exp (-(dot x w)))
      ↔ 1 + exp (-(dot x w)) < 2 from one_div_lt_one_div h2 (by linarith)]
  constructor
  · intro h
    have he1 : exp (-(dot x w)) < exp 0 := by rw [hzero]; linarith
    have := hmono.lt_iff_lt.mp he1
    linarith
  · intro h
    have : exp (-(dot x w)) < exp 0 := hmono (by linarith)
    rw [hzero] at this
    linarith

theorem npRound_sigmoid1 {exp : α → α} (hmono : StrictMono exp)
    (hzero : exp 0 = 1) (hpos : ∀ z, 0 < exp z) (x w : List α) :
    npRound (sigmoid1 exp x w) = if 0 < dot x w then (1 : α) else 0 := by
  obtain ⟨h0, h1⟩ := sigmoid1_pos_lt_one exp hpos x w
  rw [npRound_eq_ite h0 h1]
  by_cases h : 0 < dot x w
  · rw [if_pos ((half_lt_sigmoid1_iff hmono hzero hpos x w).mpr h), if_pos h]
  · rw [if_neg (fun hc => h ((half_lt_sigmoid1_iff hmono hzero hpos x w).mp hc)),
      if_neg h]

theorem accuracy_num_eq_zip (exp : α → α) (w : List α) :
    ∀ (X : List (List α)) (y : List α),
    List.zipWith (fun r yi => if r = yi then (1 : α) else 0)
        ((sigmoid exp X w).map npRound) y
      = (X.zip y).map
          (fun p => if npRound (sigmoid1 exp p.1 w) = p.2 then (1 : α) else 0)
  | [], _ => rfl
  | _ :: _, [] => rfl
  | x :: X, yi :: y =>
    congrArg (List.cons _) (accuracy_num_eq_zip exp w X y)

theorem accuracy_eq_zip (exp : α → α) (X : List (List α)) (y w : List α) :
    accuracy exp X y w
      = ((X.zip y).map
          (fun p => if npRound (sigmoid1 exp p.1 w) = p.2 then (1 : α) else 0)).sum
        / (y.length : α) := by
  rw [accuracy, accuracy_num_eq_zip]

/-! ### Training-loop lemmas -/

theorem train_succ (exp log : α → α) (Xtr : List (List α)) (ytr : List α)
    (Xval : List (List α)) (yval : List α) (eps : α) (k : ℕ)
    (s : TrainState α) :
    train exp log Xtr ytr Xval yval eps (k + 1) s
      = trainIter exp log Xtr ytr Xval yval eps
          (train exp log Xtr ytr Xval yval eps k s) := by
  simp only [train, Function.iterate_succ_apply']

theorem train_theta (exp log : α → α) (Xtr : List (List α)) (ytr : List α)
    (Xval : List (List α)) (yval : List α) (eps : α) (k : ℕ)
    (s : TrainState α) :
    (train exp log Xtr ytr Xval yval eps k s).theta
      = (trainStep exp Xtr ytr eps)^[k] s.theta := by
  induction k with
  | zero => rfl
  | succ k ih =>
    rw [train_succ, Function.iterate_succ_apply']
    show trainStep exp Xtr ytr eps (train exp log Xtr ytr Xval yval eps k s).theta
      = trainStep exp Xtr ytr eps ((trainStep exp Xtr ytr eps)^[k] s.theta)
    rw [ih]

theorem train_losses (exp log : α → α) (Xtr : List (List α)) (ytr : List α)
    (Xval : List (List α)) (yval : List α) (eps : α) (k : ℕ)
    (s : TrainState α) :
    (train exp log Xtr ytr Xval yval eps k s).losses
      = s.losses ++ (List.range k).map
          (fun i => loss exp log none 0 Xtr ytr
            ((trainStep exp Xtr ytr eps)^[i + 1] s.theta)) := by
  induction k with
  | zero => simp [train]
  | succ k ih =>
    rw [train_succ]
    show (train exp log Xtr ytr Xval yval eps k s).losses
        ++ [loss exp log none 0 Xtr ytr
            (trainStep exp Xtr ytr eps
              (train exp log Xtr ytr Xval yval eps k s).theta)] = _
    rw [ih, train_theta, List.range_succ, List.map_append, ← List.append_assoc]
    simp [Function.iterate_succ_apply']

theorem train_taccs (exp log : α → α) (Xtr : List (List α)) (ytr : List α)
    (Xval : List (List α)) (yval : List α) (eps : α) (k : ℕ)
    (s : TrainState α) :
    (train exp log Xtr ytr Xval yval eps k s).train_accs
      = s.train_accs ++ (List.range k).map
          (fun i => accuracy exp Xtr ytr
            ((trainStep exp Xtr ytr eps)^[i + 1] s.theta)) := by
  induction k with
  | zero => simp [train]
  | succ k ih =>
    rw [train_succ]
    show (train exp log Xtr ytr Xval yval eps k s).train_accs
        ++ [accuracy exp Xtr ytr
            (trainStep exp Xtr ytr eps
              (train exp log Xtr ytr Xval yval eps k s).theta)] = _
    rw [ih, train_theta, List.range_succ, List.map_append, ← List.append_assoc]
    simp [Function.iterate_succ_apply']

theorem train_vaccs (exp log : α → α) (Xtr : List (List α)) (ytr : List α)
    (Xval : List (List α)) (yval : List α) (eps : α) (k : ℕ)
    (s : TrainState α) :
    (train exp log Xtr ytr Xval yval eps k s).val_accs
      = s.val_accs ++ (List.range k).map
          (fun i => accuracy exp Xval yval
            ((trainStep exp Xtr ytr eps)^[i + 1] s.theta)) := by
  induction k with
  | zero => simp [train]
  | succ k ih =>
    rw [train_succ]
    show (train exp log Xtr ytr Xval yval eps k s).val_accs
        ++ [accuracy exp Xval yval
            (trainStep exp Xtr ytr eps
              (train exp log Xtr ytr Xval yval eps k s).theta)] = _
    rw [ih, train_theta, List.range_succ, List.map_append, ← List.append_assoc]
    simp [Function.iterate_succ_apply']

/-! ### Properties of the concrete witness exponential -/

theorem qexp_pos (z : ℚ) : 0 < qexp z := by
  unfold qexp
  split_ifs with h
  · linarith
  · have : (0 : ℚ) < 1 - z := by linarith [not_le.mp h]
    positivity

theorem qexp_zero : qexp 0 = 1 := by norm_num [qexp]

theorem qexp_strictMono : StrictMono qexp := by
  intro a b hab
  unfold qexp
  split_ifs with ha hb hb
  · linarith
  · exact absurd (le_trans ha hab.le) hb
  · have h1 : (0 : ℚ) < 1 - a := by linarith [not_le.mp ha]
    have h2 : 1 / (1 - a) < 1 := by
      rw [div_lt_one h1]
      linarith [not_le.mp ha]
    linarith
  · have h1 : (0 : ℚ) < 1 - a := by linarith [not_le.mp ha]
    have h2 : (0 : ℚ) < 1 - b := by linarith [not_le.mp hb]
    rw [div_lt_div_iff h1 h2]
    linarith

/-! ### Claims -/

/-- C1: for every design matrix `X` (nonempty, rectangular with `d`
columns), label vector `y` of matching length and weight vector `w` of
length `d`, the batch `gradient` returns the vector
`-Xᵗ(y - sigmoid(X, w)) / n` (`n` the number of rows) plus a
regularization term that is `λ * sign(w)` elementwise for norm `'l1'`,
`2λ * w` for `'l2'`, and the zero vector for `None`. -/
theorem gradient_batch_matches_spec (exp : α → α) (norm : Option String)
    (lamb : α) (d : ℕ) {X : List (List α)} {y w : List α} (hX : X ≠ [])
    (hrect : ∀ row ∈ X, row.length = d) (hy : y.length = X.length)
    (hw : w.length = d)
    (hnorm : norm = none ∨ norm = some "l1" ∨ norm = some "l2") :
    gradientBatch exp norm lamb X y w = specGradientBatch exp norm lamb X y w := by
  have hcomm : ∀ u v : List α, vecAdd u v = vecAdd v u :=
    fun u v => List.zipWith_comm_of_comm _ add_comm u v
  have hlen : (unregGradient exp X y w).length = d := by
    rw [← gradBase_eq_unreg]
    exact gradBase_length exp hX hrect hy
  rcases hnorm with h | h | h <;> subst h
  · unfold gradientBatch specGradientBatch specRegTerm
    rw [if_neg (by decide), if_neg (by decide), if_neg (by decide),
      if_neg (by decide), gradBase_eq_unreg, hw, ← hlen]
    exact (vecAdd_replicate_zero _).symm
  · unfold gradientBatch specGradientBatch specRegTerm
    rw [if_pos rfl, if_pos rfl, gradBase_eq_unreg]
    exact hcomm _ _
  · unfold gradientBatch specGradientBatch specRegTerm
    rw [if_neg (by decide), if_pos rfl, if_neg (by decide), if_pos rfl,
      gradBase_eq_unreg]
    exact hcomm _ _

/-- Witness for C1 at a concrete input. -/
theorem gradient_batch_matches_spec_witness :
    ([[1, 2]] : List (List ℚ)) ≠ []
    ∧ (∀ row ∈ ([[1, 2]] : List (List ℚ)), row.length = 2)
    ∧ ([0] : List ℚ).length = ([[1, 2]] : List (List ℚ)).length
    ∧ ([3, 4] : List ℚ).length = 2
    ∧ gradientBatch (fun _ => (1 : ℚ)) (some "l1") 2 [[1, 2]] [0] [3, 4]
      = specGradientBatch (fun _ => (1 : ℚ)) (some "l1") 2 [[1, 2]] [0] [3, 4] :=
  ⟨by decide, by decide, by decide, by decide,
    gradient_batch_matches_spec (fun _ => (1 : ℚ)) (some "l1") 2 2 (by decide)
      (by decide) (by decide) (by decide) (Or.inr (Or.inl rfl))⟩

/-- C2: for every non-empty `X` and `y` of matching row count, `loss`
returns the negative average log-likelihood plus the penalty
`λ * sum(|w|)` for `'l1'`, `λ * ‖w‖²` for `'l2'` and `0` otherwise. -/
theorem loss_matches_spec (exp log : α → α) (norm : Option String)
    (lamb : α) (X : List (List α)) (y w : List α)
    (hlen : X.length = y.length) (hne : X ≠ []) :
    loss exp log norm lamb X y w = specLoss exp log norm lamb X y w := by
  have hpen : normcost norm lamb w = specPenalty norm lamb w := rfl
  rw [loss, specLoss, hpen]
  ring

/-- Witness for C2 at a concrete input. -/
theorem loss_matches_spec_witness :
    ([[1]] : List (List ℚ)).length = ([1] : List ℚ).length
    ∧ ([[1]] : List (List ℚ)) ≠ []
    ∧ loss (fun _ => (1 : ℚ)) (fun _ => 1) (some "l2") 3 [[1]] [1] [2]
      = specLoss (fun _ => (1 : ℚ)) (fun _ => 1) (some "l2") 3 [[1]] [1] [2] :=
  ⟨rfl, by decide,
    loss_matches_spec (fun _ => (1 : ℚ)) (fun _ => 1) (some "l2") 3 [[1]] [1] [2]
      rfl (by decide)⟩

/-- C3: starting from `theta = w0` and empty histories, the training loop
performs exactly `k` full-batch updates (its parameters after `k`
iterations are the `k`-fold iterate of `w ↦ w - ε * gradient(Xtr, ytr, w)`
over the entire training set), appends after the `i`-th update exactly one
loss value, one training accuracy and one validation accuracy, all
evaluated at the updated parameters, stops only after the fixed `k`
iterations, and the parameters, losses and training accuracies do not
depend on the validation set, which therefore enters no gradient
computation. -/
theorem training_loop_behavior (exp log : α → α) (Xtr : List (List α))
    (ytr : List α) (Xval Xval2 : List (List α)) (yval yval2 : List α)
    (eps : α) (w0 : List α) (k : ℕ) :
    (train exp log Xtr ytr Xval yval eps k ⟨w0, [], [], []⟩).theta
        = (trainStep exp Xtr ytr eps)^[k] w0
    ∧ (train exp log Xtr ytr Xval yval eps k ⟨w0, [], [], []⟩).losses
        = (List.range k).map (fun i => loss exp log none 0 Xtr ytr
            ((trainStep exp Xtr ytr eps)^[i + 1] w0))
    ∧ (train exp log Xtr ytr Xval yval eps k ⟨w0, [], [], []⟩).train_accs
        = (List.range k).map (fun i => accuracy exp Xtr ytr
            ((trainStep exp Xtr ytr eps)^[i + 1] w0))
    ∧ (train exp log Xtr ytr Xval yval eps k ⟨w0, [], [], []⟩).val_accs
        = (List.range k).map (fun i => accuracy exp Xval yval
            ((trainStep exp Xtr ytr eps)^[i + 1] w0))
    ∧ (train exp log Xtr ytr Xval yval eps k ⟨w0, [], [], []⟩).theta
        = (train exp log Xtr ytr Xval2 yval2 eps k ⟨w0, [], [], []⟩).theta
    ∧ (train exp log Xtr ytr Xval yval eps k ⟨w0, [], [], []⟩).losses
        = (train exp log Xtr ytr Xval2 yval2 eps k ⟨w0, [], [], []⟩).losses
    ∧ (train exp log Xtr ytr Xval yval eps k ⟨w0, [], [], []⟩).train_accs
        = (train exp log Xtr ytr Xval2 yval2 eps k ⟨w0, [], [], []⟩).train_accs := by
  refine ⟨?_, ?_, ?_, ?_, ?_, ?_, ?_⟩
  · rw [train_theta]
  · simp [train_losses]
  · simp [train_taccs]
  · simp [train_vaccs]
  · rw [train_theta, train_theta]
  · simp [train_losses]
  · simp [train_taccs]

/-- C4: every element of `sigmoid(X, w)` lies strictly between 0 and 1,
for any `exp` that is everywhere positive (as the real exponential is). -/
theorem sigmoid_strictly_between (exp : α → α) (hexp : ∀ z, 0 < exp z)
    (X : List (List α)) (w : List α) :
    ∀ p ∈ sigmoid exp X w, 0 < p ∧ p < 1 := by
  intro p hp
  obtain ⟨x, -, rfl⟩ := List.mem_map.mp hp
  exact sigmoid1_pos_lt_one exp hexp x w

/-- Witness for C4 at a concrete input. -/
theorem sigmoid_strictly_between_witness :
    (∀ z : ℚ, 0 < (fun _ => (1 : ℚ)) z)
    ∧ sigmoid1 (fun _ => (1 : ℚ)) [1] [1] ∈ sigmoid (fun _ => (1 : ℚ)) [[1]] [1]
    ∧ 0 < sigmoid1 (fun _ => (1 : ℚ)) [1] [1]
    ∧ sigmoid1 (fun _ => (1 : ℚ)) [1] [1] < 1 :=
  ⟨fun _ => one_pos, by simp [sigmoid],
    sigmoid_strictly_between (fun _ => (1 : ℚ)) (fun _ => one_pos) [[1]] [1]
      _ (by simp [sigmoid])⟩

/-- C5: with `norm=None, λ=0` the batch gradient is exactly the
unregularized gradient `-Xᵗ(y - sigmoid(X, w)) / n`, and with
`norm='l2', λ=0` it is identical to the unregularized call. -/
theorem gradient_unreg_l2_zero (exp : α → α) (d : ℕ) {X : List (List α)}
    {y w : List α} (hX : X ≠ []) (hrect : ∀ row ∈ X, row.length = d)
    (hy : y.length = X.length) (hw : w.length = d) :
    gradientBatch exp none 0 X y w = unregGradient exp X y w
    ∧ gradientBatch exp (some "l2") 0 X y w = gradientBatch exp none 0 X y w := by
  have hnone : gradientBatch exp none 0 X y w = gradBase exp X y w := by
    unfold gradientBatch
    rw [if_neg (by decide), if_neg (by decide)]
  refine ⟨by rw [hnone, gradBase_eq_unreg], ?_⟩
  rw [hnone]
  unfold gradientBatch
  rw [if_neg (by decide), if_pos rfl]
  have hb : (gradBase exp X y w).length ≤ w.length :=
    le_of_eq (by rw [gradBase_length exp hX hrect hy, hw])
  calc vecAdd (w.map fun a => 2 * 0 * a) (gradBase exp X y w)
      = vecAdd (w.map fun _ => (0 : α)) (gradBase exp X y w) := by
        simp only [mul_zero, zero_mul]
    _ = gradBase exp X y w := vecAdd_map_zero _ _ hb

/-- Witness for C5 at a concrete input. -/
theorem gradient_unreg_l2_zero_witness :
    ([[1, 2]] : List (List ℚ)) ≠ []
    ∧ (∀ row ∈ ([[1, 2]] : List (List ℚ)), row.length = 2)
    ∧ ([1] : List ℚ).length = ([[1, 2]] : List (List ℚ)).length
    ∧ ([3, 4] : List ℚ).length = 2
    ∧ gradientBatch (fun _ => (1 : ℚ)) none 0 [[1, 2]] [1] [3, 4]
        = unregGradient (fun _ => (1 : ℚ)) [[1, 2]] [1] [3, 4]
    ∧ gradientBatch (fun _ => (1 : ℚ)) (some "l2") 0 [[1, 2]] [1] [3, 4]
        = gradientBatch (fun _ => (1 : ℚ)) none 0 [[1, 2]] [1] [3, 4] :=
  ⟨by decide, by decide, by decide, by decide,
    (gradient_unreg_l2_zero (fun _ => (1 : ℚ)) 2 (by decide) (by decide)
      (by decide) (by decide)).1,
    (gradient_unreg_l2_zero (fun _ => (1 : ℚ)) 2 (by decide) (by decide)
      (by decide) (by decide)).2⟩

/-- C6: `accuracy` is invariant under permuting the rows of `X` and the
entries of `y` together (stated via a permutation of the zipped
row/label pairs). -/
theorem accuracy_perm_invariant (exp : α → α) (w : List α)
    {X X2 : List (List α)} {y y2 : List α}
    (hlen : X.length = y.length) (hlen2 : X2.length = y2.length)
    (hperm : (X.zip y).Perm (X2.zip y2)) :
    accuracy exp X2 y2 w = accuracy exp X y w := by
  have hl := hperm.length_eq
  rw [List.length_zip, List.length_zip, hlen, hlen2, min_self, min_self] at hl
  rw [accuracy_eq_zip, accuracy_eq_zip, ← hl, ← (hperm.map _).sum_eq]

/-- Witness for C6 at a concrete input. -/
theorem accuracy_perm_invariant_witness :
    ([[3], [2]] : List (List ℚ)).length = ([0, 1] : List ℚ).length
    ∧ ([[2], [3]] : List (List ℚ)).length = ([1, 0] : List ℚ).length
    ∧ (([[3], [2]] : List (List ℚ)).zip ([0, 1] : List ℚ)).Perm
        (([[2], [3]] : List (List ℚ)).zip ([1, 0] : List ℚ))
    ∧ accuracy (fun _ => (1 : ℚ)) [[2], [3]] [1, 0] [1]
        = accuracy (fun _ => (1 : ℚ)) [[3], [2]] [0, 1] [1] :=
  ⟨by decide, by decide, by decide,
    accuracy_perm_invariant (fun _ => (1 : ℚ)) [1] (by decide) (by decide)
      (by decide)⟩

/-- C7 counterexample: at `x = [1, 0]`, `y = 0`, `w = [1, 1]`,
`norm = 'l1'`, `λ = 1` (a `λ ≥ 0` and an `x` of `w`'s length), the
one-point gradient call does not return a column with as many entries as
`w`: the in-place addition of the reshaped `(2, 1)` base term into the
1-D length-2 regularization array is a numpy broadcasting error. -/
theorem gradient_onept_l1_cex :
    isColOfLen 2 (gradientOnept (fun _ => (1 : ℚ)) (some "l1") 1 [1, 0] 0 [1, 1])
      = false
    ∧ ([1, 0] : List ℚ).length = ([1, 1] : List ℚ).length
    ∧ (0 : ℚ) ≤ 1 := by
  refine ⟨?_, by decide, by decide⟩
  rw [gradientOnept, if_pos (by decide), if_pos (Or.inl rfl)]
  rfl

/-- C7 amended: for a single data point `x` with as many entries as `w`
and a norm selector other than `'l1'` and `'l2'`, the one-point gradient
returns a `(w.size, 1)` column, i.e. a result with exactly as many
entries as `w`; with `'l1'` or `'l2'` the call instead fails on the
in-place broadcast of the `(w.size, 1)` base term into the 1-D
regularization term. -/
theorem gradient_onept_shape_amended (exp : α → α) (norm : Option String)
    (lamb : α) (x : List α) (y : α) (w : List α)
    (hx : x.length = w.length) (h1 : norm ≠ some "l1") (h2 : norm ≠ some "l2") :
    isColOfLen w.length (gradientOnept exp norm lamb x y w) = true := by
  rw [gradientOnept, if_pos hx, if_neg (not_or.mpr ⟨h1, h2⟩)]
  simp [isColOfLen, hx]

/-- Witness for the amended C7 at a concrete input. -/
theorem gradient_onept_shape_amended_witness :
    ([1, 0] : List ℚ).length = ([1, 1] : List ℚ).length
    ∧ (none : Option String) ≠ some "l1"
    ∧ (none : Option String) ≠ some "l2"
    ∧ isColOfLen 2 (gradientOnept (fun _ => (1 : ℚ)) none 0 [1, 0] 0 [1, 1])
        = true :=
  ⟨by decide, by decide, by decide,
    gradient_onept_shape_amended (fun _ => (1 : ℚ)) none 0 [1, 0] 0 [1, 1]
      (by decide) (by decide) (by decide)⟩

/-- C8: when `w0` has as many entries as `X` has columns, one
gradient-descent update preserves the length of the weight vector, and
the weight vector after every one of the `k` iterations of training still
has exactly that length. -/
theorem weight_length_invariant (exp : α → α) (d : ℕ) {Xtr : List (List α)}
    {ytr : List α} (eps : α) {w0 : List α} (hX : Xtr ≠ [])
    (hrect : ∀ row ∈ Xtr, row.length = d) (hy : ytr.length = Xtr.length)
    (hw : w0.length = d) :
    (∀ w : List α, w.length = d → (trainStep exp Xtr ytr eps w).length = d)
    ∧ ∀ k : ℕ, ((trainStep exp Xtr ytr eps)^[k] w0).length = d := by
  have hstep : ∀ w : List α, w.length = d →
      (trainStep exp Xtr ytr eps w).length = d := by
    intro w hwl
    have hg := gradientBatch_length exp none 0 hX hrect hy hwl
    simp [trainStep, vecSub, scale, hg, hwl]
  refine ⟨hstep, fun k => ?_⟩
  induction k with
  | zero => simpa
  | succ k ih => rw [Function.iterate_succ_apply']; exact hstep _ ih

/-- Witness for C8 at a concrete input. -/
theorem weight_length_invariant_witness :
    ([[1]] : List (List ℚ)) ≠ []
    ∧ (∀ row ∈ ([[1]] : List (List ℚ)), row.length = 1)
    ∧ ([1] : List ℚ).length = ([[1]] : List (List ℚ)).length
    ∧ ([1] : List ℚ).length = 1
    ∧ ((trainStep (fun _ => (1 : ℚ)) [[1]] [1] 1)^[3] [1]).length = 1 :=
  ⟨by decide, by decide, by decide, by decide,
    (weight_length_invariant (fun _ => (1 : ℚ)) 1 1 (by decide) (by decide)
      (by decide) (by decide)).2 3⟩

/-- C9: for every norm argument other than the exact strings `'l1'` and
`'l2'`, `gradient` and `loss` return exactly the unregularized result,
silently ignoring `λ` (totality of the embedding models the absence of an
error). -/
theorem unknown_norm_ignored (exp log : α → α) (norm : Option String)
    (lamb : α) (X : List (List α)) (y w : List α)
    (h1 : norm ≠ some "l1") (h2 : norm ≠ some "l2") :
    gradientBatch exp norm lamb X y w = gradientBatch exp none 0 X y w
    ∧ loss exp log norm lamb X y w = loss exp log none 0 X y w := by
  constructor
  · unfold gradientBatch
    rw [if_neg h1, if_neg h2, if_neg (by decide), if_neg (by decide)]
  · unfold loss normcost
    rw [if_neg h1, if_neg h2, if_neg (by decide), if_neg (by decide)]

/-- Witness for C9 at a concrete input (the capitalized string `'L1'`). -/
theorem unknown_norm_ignored_witness :
    (some "L1" : Option String) ≠ some "l1"
    ∧ (some "L1" : Option String) ≠ some "l2"
    ∧ gradientBatch (fun _ => (1 : ℚ)) (some "L1") 5 [[1]] [1] [2]
        = gradientBatch (fun _ => (1 : ℚ)) none 0 [[1]] [1] [2]
    ∧ loss (fun _ => (1 : ℚ)) (fun _ => 1) (some "L1") 5 [[1]] [1] [2]
        = loss (fun _ => (1 : ℚ)) (fun _ => 1) none 0 [[1]] [1] [2] :=
  ⟨by decide, by decide,
    (unknown_norm_ignored (fun _ => (1 : ℚ)) (fun _ => 1) (some "L1") 5
      [[1]] [1] [2] (by decide) (by decide)).1,
    (unknown_norm_ignored (fun _ => (1 : ℚ)) (fun _ => 1) (some "L1") 5
      [[1]] [1] [2] (by decide) (by decide)).2⟩

/-- C10: positively rescaling the weights never changes `accuracy`, for
any `exp` that is strictly monotone, positive and equal to 1 at 0 (as the
real exponential is): the rounded predictions depend only on the signs of
the scores, and the score-0 tie is broken identically in both runs. -/
theorem accuracy_scale_invariant {exp : α → α} (hmono : StrictMono exp)
    (hzero : exp 0 = 1) (hpos : ∀ z, 0 < exp z)
    (X : List (List α)) (y w : List α) {c : α} (hc : 0 < c) :
    accuracy exp X y (w.map (fun a => c * a)) = accuracy exp X y w := by
  have key : ∀ x : List α,
      npRound (sigmoid1 exp x (w.map (fun a => c * a)))
        = npRound (sigmoid1 exp x w) := by
    intro x
    rw [npRound_sigmoid1 hmono hzero hpos, npRound_sigmoid1 hmono hzero hpos,
      dot_map_smul]
    by_cases h : 0 < dot x w
    · rw [if_pos h, if_pos (mul_pos hc h)]
    · rw [if_neg h, if_neg (fun hcd => h (by nlinarith))]
  unfold accuracy sigmoid
  rw [List.map_map, List.map_map]
  simp only [Function.comp_def]
  simp only [key]

/-- Witness for C10 at a concrete input, with the concrete strictly
monotone positive `qexp`. -/
theorem accuracy_scale_invariant_witness :
    StrictMono qexp ∧ qexp 0 = 1 ∧ (∀ z : ℚ, 0 < qexp z) ∧ (0 : ℚ) < 2
    ∧ accuracy qexp [[1], [-1]] [1, 0] (([1] : List ℚ).map (fun a => 2 * a))
        = accuracy qexp [[1], [-1]] [1, 0] [1] :=
  ⟨qexp_strictMono, qexp_zero, qexp_pos, by norm_num,
    accuracy_scale_invariant qexp_strictMono qexp_zero qexp_pos
      [[1], [-1]] [1, 0] [1] (by norm_num)⟩

end SusyLR
